import Mathlib

/-!
Verification of the wildcard matchers in `fastwildcompare.go`
(`FastWildCompareAscii` and `FastWildCompareRuneSlices`).

The two Go functions are textually identical up to the symbol type
(string bytes vs. rune slices), so the algorithm is embedded once,
generically over a symbol type `α` with decidable equality and the two
wildcard marker values, and instantiated at both symbol widths.

Loops are embedded as fuel-indexed structural recursions; the result type
`Except Err _` separates a normal result from the two abnormal outcomes a
Go execution could in principle have: an out-of-bounds index access
(`Err.oob`, a Go panic) and non-termination (`Err.fuel`, fuel exhaustion).
The main theorems prove both are unreachable for every input.
-/

namespace MatchingWildcards

/-- Abnormal outcomes of the embedded computation: an out-of-bounds index
access (a Go panic), or exhaustion of the loop fuel (modelling
non-termination). -/
inductive Err where
  | oob : Err
  | fuel : Err
deriving DecidableEq

variable {α : Type} [DecidableEq α]

/-- Lines 40-46 / 204-210 of `fastwildcompare.go`: with the subject
exhausted, skip trailing `*` symbols of the pattern; succeed iff the whole
remaining pattern consists of `*` symbols. -/
def starTail (star : α) (strWild : List α) : Nat → Nat → Except Err Bool
  | 0, _ => .error .fuel
  | fuel+1, iWild =>
    match strWild.get? iWild with
    | none => .error .oob
    | some c =>
      if c = star then
        if strWild.length ≤ iWild + 1 then .ok true
        else starTail star strWild fuel (iWild + 1)
      else .ok false

/-- Lines 58-68 / 96-106 / 222-232 / 260-270: after finding a `*` at
`iWild`, collapse the run of consecutive `*` symbols.  Returns `none` when
the pattern is exhausted by the run (the Go code returns `true` there),
and `some iWild'` with the first position after the run otherwise. -/
def collapseStars (star : α) (strWild : List α) : Nat → Nat → Except Err (Option Nat)
  | 0, _ => .error .fuel
  | fuel+1, iWild =>
    if strWild.length ≤ iWild + 1 then .ok none
    else
      match strWild.get? (iWild + 1) with
      | none => .error .oob
      | some c =>
        if c ≠ star then .ok (some (iWild + 1))
        else collapseStars star strWild fuel (iWild + 1)

/-- Lines 71-79 / 235-243: scan the subject from `iTame` for the first
occurrence of the literal `c` that follows a `*` run.  The loop guard
reads `strTame[iTame]` before any local length check, exactly as in the
source, so an out-of-bounds entry position would be a panic (`Err.oob`).
Returns `none` when the subject runs out (the Go code returns `false`). -/
def scanTame1 (c : α) (strTame : List α) : Nat → Nat → Except Err (Option Nat)
  | 0, _ => .error .fuel
  | fuel+1, iTame =>
    match strTame.get? iTame with
    | none => .error .oob
    | some x =>
      if c ≠ x then
        if strTame.length ≤ iTame + 1 then .ok none
        else scanTame1 c strTame fuel (iTame + 1)
      else .ok (some iTame)

/-- Lines 113-122 / 277-286: the lower-loop version of the literal scan,
whose guard checks `len(strTame) > iTame` before reading the subject. -/
def scanTame2 (c : α) (strTame : List α) : Nat → Nat → Except Err (Option Nat)
  | 0, _ => .error .fuel
  | fuel+1, iTame =>
    if iTame < strTame.length ∧ some c ≠ strTame.get? iTame then
      if strTame.length ≤ iTame + 1 then .ok none
      else scanTame2 c strTame fuel (iTame + 1)
    else .ok (some iTame)

/-- Lines 141-145 / 305-309: on a mismatch, skip `?` symbols at the
checkpointed pattern position, advancing the checkpointed subject position
in step. -/
def skipQm (qm : α) (strWild : List α) : Nat → Nat → Nat → Except Err (Nat × Nat)
  | 0, _, _ => .error .fuel
  | fuel+1, iWildSeq, iTameSeq =>
    if iWildSeq < strWild.length ∧ strWild.get? iWildSeq = some qm then
      skipQm qm strWild fuel (iWildSeq + 1) (iTameSeq + 1)
    else .ok (iWildSeq, iTameSeq)

/-- Lines 150-165 / 314-329: advance the checkpointed subject position
one candidate at a time until the pattern symbol at the checkpoint matches
the subject symbol there.  `.inl b` models `return b`; `.inr iTameSeq`
models the `break` with the updated checkpoint. -/
def fallback (strWild strTame : List α) (iWild : Nat) :
    Nat → Nat → Except Err (Bool ⊕ Nat)
  | 0, _ => .error .fuel
  | fuel+1, iTameSeq =>
    let iTs := iTameSeq + 1
    if strTame.length ≤ iTs then
      .ok (.inl (decide (strWild.length ≤ iWild)))
    else if iWild < strWild.length ∧ strWild.get? iWild = strTame.get? iTs then
      .ok (.inr iTs)
    else fallback strWild strTame iWild fuel iTs

/-- Lines 93-182 / 257-346: the lower loop.  State is the cursor
`(iWild, iTame)` plus the checkpoint `(iWildSeq, iTameSeq)`; one fuel unit
is consumed per iteration of the outer `for`. -/
def loop2 (star qm : α) (strWild strTame : List α) :
    Nat → Nat → Nat → Nat → Nat → Except Err Bool
  | 0, _, _, _, _ => .error .fuel
  | fuel+1, iWild, iTame, iWildSeq, iTameSeq =>
    if iWild < strWild.length ∧ strWild.get? iWild = some star then
      -- lines 94-126: got wild again
      match collapseStars star strWild (strWild.length + 1) iWild with
      | .error e => .error e
      | .ok none => .ok true
      | .ok (some iWild') =>
        if strTame.length ≤ iTame then .ok false
        else
          match strWild.get? iWild' with
          | none => .error .oob
          | some c' =>
            if c' ≠ qm then
              match scanTame2 c' strTame (strTame.length + 1) iTame with
              | .error e => .error e
              | .ok none => .ok false
              | .ok (some iTame') =>
                -- fall through to lines 171-181
                if strTame.length ≤ iTame' then .ok (decide (strWild.length ≤ iWild'))
                else loop2 star qm strWild strTame fuel (iWild' + 1) (iTame' + 1) iWild' iTame'
            else
              if strTame.length ≤ iTame then .ok (decide (strWild.length ≤ iWild'))
              else loop2 star qm strWild strTame fuel (iWild' + 1) (iTame + 1) iWild' iTame
    else
      -- lines 127-168: the equivalent portion of the upper loop
      if strTame.length ≤ iTame then .ok (decide (strWild.length ≤ iWild))
      else if strWild.length ≤ iWild ∨
              (strWild.get? iWild ≠ strTame.get? iTame ∧ strWild.get? iWild ≠ some qm) then
        match skipQm qm strWild (strWild.length + 1) iWildSeq iTameSeq with
        | .error e => .error e
        | .ok (iWildSeq', iTameSeq') =>
          match fallback strWild strTame iWildSeq' (strTame.length + 1) iTameSeq' with
          | .error e => .error e
          | .ok (.inl b) => .ok b
          | .ok (.inr iTameSeq'') =>
            if strTame.length ≤ iTameSeq'' then .ok (decide (strWild.length ≤ iWildSeq'))
            else loop2 star qm strWild strTame fuel (iWildSeq' + 1) (iTameSeq'' + 1) iWildSeq' iTameSeq''
      else
        if strTame.length ≤ iTame then .ok (decide (strWild.length ≤ iWild))
        else loop2 star qm strWild strTame fuel (iWild + 1) (iTame + 1) iWildSeq iTameSeq

/-- Lines 36-90 / 200-254: the upper loop, walking both sequences with the
single index `iWild` until the first `*` (if any), then handing over to
`loop2` with the initial checkpoint. -/
def loop1 (star qm : α) (strWild strTame : List α) : Nat → Nat → Except Err Bool
  | 0, _ => .error .fuel
  | fuel+1, iWild =>
    if strTame.length ≤ iWild then
      if iWild < strWild.length then starTail star strWild (strWild.length + 1) iWild
      else .ok true
    else if strWild.length ≤ iWild then .ok false
    else if strWild.get? iWild = some star then
      -- iTame := iWild (line 56 / 220)
      match collapseStars star strWild (strWild.length + 1) iWild with
      | .error e => .error e
      | .ok none => .ok true
      | .ok (some iWild') =>
        match strWild.get? iWild' with
        | none => .error .oob
        | some c' =>
          if c' ≠ qm then
            match scanTame1 c' strTame (strTame.length + 1) iWild with
            | .error e => .error e
            | .ok none => .ok false
            | .ok (some iTame') =>
              loop2 star qm strWild strTame
                ((strTame.length + 2) * (strTame.length + 2)) iWild' iTame' iWild' iTame'
          else
            loop2 star qm strWild strTame
              ((strTame.length + 2) * (strTame.length + 2)) iWild' iWild iWild' iWild
    else
      match strWild.get? iWild, strTame.get? iWild with
      | some c, some x =>
        if c ≠ x ∧ c ≠ qm then .ok false
        else loop1 star qm strWild strTame fuel (iWild + 1)
      | _, _ => .error .oob

/-- The whole matcher, generic over the symbol type and the two wildcard
marker values; both Go functions are instances of it. -/
def fastWildCompareCore (star qm : α) (strWild strTame : List α) : Except Err Bool :=
  loop1 star qm strWild strTame (strWild.length + strTame.length + 2) 0

/-- `FastWildCompareAscii` (lines 28-183): the matcher over single-byte
symbols; a Go string is indexed byte by byte, so the input is the list of
byte values, with markers `'*'` = 42 and `'?'` = 63. -/
def FastWildCompareAscii (strWild strTame : List Nat) : Except Err Bool :=
  fastWildCompareCore 42 63 strWild strTame

/-- `FastWildCompareRuneSlices` (lines 192-347): the matcher over decoded
Unicode scalar values (Go runes). -/
def FastWildCompareRuneSlices (rslcWild rslcTame : List Char) : Except Err Bool :=
  fastWildCompareCore '*' '?' rslcWild rslcTame

/-- Reference glob semantics: a literal compares equal by value, `?`
consumes exactly one subject symbol, and `*` consumes zero or more, with
an exhaustive search over splits. -/
def globMatch (star qm : α) : List α → List α → Bool
  | [], t => t.isEmpty
  | c :: p, t =>
    if c = star then
      globMatch star qm p t ||
        (match t with
         | [] => false
         | _ :: t' => globMatch star qm (c :: p) t')
    else
      match t with
      | [] => false
      | x :: t' => if c = qm ∨ c = x then globMatch star qm p t' else false
termination_by p t => (p.length, t.length)

/-- `collapseStarRuns` replaces every maximal run of consecutive `*`
symbols in a pattern by a single `*` (the transform named by the spec's
run-collapsing law). -/
def collapseStarRuns (star : α) : List α → List α
  | [] => []
  | c :: p =>
    match collapseStarRuns star p with
    | [] => [c]
    | d :: q => if c = star ∧ d = star then d :: q else c :: d :: q

/-! ### Small list utilities -/

omit [DecidableEq α] in
theorem get?_some_of_lt {l : List α} {i : Nat} (h : i < l.length) :
    ∃ c, l.get? i = some c :=
  ⟨l.get ⟨i, h⟩, List.get?_eq_get h⟩

omit [DecidableEq α] in
theorem drop_cons_of_get? {l : List α} {i : Nat} {c : α} (h : l.get? i = some c) :
    l.drop i = c :: l.drop (i + 1) := by
  obtain ⟨hlt, hget⟩ := List.get?_eq_some.mp h
  rw [List.drop_eq_getElem_cons hlt]
  rw [List.get?_eq_get hlt] at h
  simp only [List.get_eq_getElem] at h
  rw [Option.some.inj h]

theorem bool_eq_decide {b : Bool} {P : Prop} [Decidable P] (h : b = true ↔ P) :
    b = decide P := by
  rw [Bool.eq_iff_iff, decide_eq_true_eq]
  exact h

/-! ### Lemmas about the reference glob semantics -/

variable (star qm : α)

theorem globMatch_nil_left (t : List α) : globMatch star qm [] t = t.isEmpty := by
  simp [globMatch]

theorem globMatch_star_nil (p : List α) :
    globMatch star qm (star :: p) [] = globMatch star qm p [] := by
  simp [globMatch]

theorem globMatch_star_cons (p : List α) (x : α) (t : List α) :
    globMatch star qm (star :: p) (x :: t) =
      (globMatch star qm p (x :: t) || globMatch star qm (star :: p) t) := by
  simp [globMatch]

theorem globMatch_cons_nil {c : α} (hc : c ≠ star) (p : List α) :
    globMatch star qm (c :: p) [] = false := by
  simp [globMatch, hc]

theorem globMatch_cons_ne {c : α} (hc : c ≠ star) (p : List α) (x : α) (t : List α) :
    globMatch star qm (c :: p) (x :: t) =
      if c = qm ∨ c = x then globMatch star qm p t else false := by
  simp [globMatch, hc]

theorem globMatch_nil_right (p : List α) :
    globMatch star qm p [] = p.all (fun c => decide (c = star)) := by
  induction p with
  | nil => simp [globMatch]
  | cons c p ih =>
    by_cases hc : c = star
    · subst hc
      rw [globMatch_star_nil, ih]
      simp
    · rw [globMatch_cons_nil star qm hc]
      simp [hc]

/-- The exhaustive-search meaning of a leading `*`: some split works. -/
theorem globMatch_star_iff (p t : List α) :
    globMatch star qm (star :: p) t = true ↔
      ∃ j, j ≤ t.length ∧ globMatch star qm p (t.drop j) = true := by
  induction t with
  | nil =>
    rw [globMatch_star_nil]
    constructor
    · intro h; exact ⟨0, Nat.le_refl 0, by simpa using h⟩
    · rintro ⟨j, hj, h⟩
      obtain rfl : j = 0 := by simpa using hj
      simpa using h
  | cons x t ih =>
    rw [globMatch_star_cons]
    constructor
    · intro h
      rcases Bool.or_eq_true_iff.mp h with h | h
      · exact ⟨0, Nat.zero_le _, by simpa using h⟩
      · obtain ⟨j, hj, hg⟩ := ih.mp h
        exact ⟨j + 1, by simpa using Nat.succ_le_succ hj, by simpa using hg⟩
    · rintro ⟨j, hj, h⟩
      cases j with
      | zero => exact Bool.or_eq_true_iff.mpr (Or.inl (by simpa using h))
      | succ j =>
        refine Bool.or_eq_true_iff.mpr (Or.inr (ih.mpr ⟨j, ?_, by simpa using h⟩))
        simpa using Nat.le_of_succ_le_succ hj

/-- Version of `globMatch_star_iff` for a subject suffix. -/
theorem globMatch_star_drop (p t : List α) (i : Nat) (hi : i ≤ t.length) :
    globMatch star qm (star :: p) (t.drop i) = true ↔
      ∃ m, i ≤ m ∧ m ≤ t.length ∧ globMatch star qm p (t.drop m) = true := by
  rw [globMatch_star_iff]
  constructor
  · rintro ⟨j, hj, h⟩
    rw [List.length_drop] at hj
    rw [List.drop_drop] at h
    exact ⟨i + j, by omega, by omega, h⟩
  · rintro ⟨m, him, hm, h⟩
    refine ⟨m - i, by rw [List.length_drop]; omega, ?_⟩
    rw [List.drop_drop]
    rwa [show i + (m - i) = m by omega]

/-- A leading `*` absorbs more of the subject: success on a later suffix
implies success on an earlier one. -/
theorem globMatch_star_drop_mono (p t : List α) {i j : Nat} (hij : i ≤ j)
    (h : globMatch star qm (star :: p) (t.drop j) = true) :
    globMatch star qm (star :: p) (t.drop i) = true := by
  by_cases hjt : j ≤ t.length
  · rw [globMatch_star_drop star qm p t j hjt] at h
    rw [globMatch_star_drop star qm p t i (by omega)]
    obtain ⟨m, _, hm, hg⟩ := h
    exact ⟨m, by omega, hm, hg⟩
  · rw [List.drop_eq_nil_iff.mpr (by omega), globMatch_star_nil] at h
    rw [globMatch_star_iff]
    exact ⟨(t.drop i).length, Nat.le_refl _, by rw [List.drop_length]; exact h⟩

theorem globMatch_star_star (p t : List α) :
    globMatch star qm (star :: star :: p) t = globMatch star qm (star :: p) t := by
  rw [Bool.eq_iff_iff, globMatch_star_iff, globMatch_star_iff]
  constructor
  · rintro ⟨j, hj, h⟩
    rw [show t.drop j = (t.drop j).drop 0 by simp] at h
    obtain ⟨m, _, hm, hg⟩ :=
      (globMatch_star_drop star qm p (t.drop j) 0 (Nat.zero_le _)).mp h
    rw [List.drop_drop] at hg
    rw [List.length_drop] at hm
    exact ⟨j + m, by omega, hg⟩
  · rintro ⟨j, hj, h⟩
    refine ⟨j, hj, ?_⟩
    rw [globMatch_star_iff]
    exact ⟨0, Nat.zero_le _, by simpa using h⟩

theorem globMatch_replicate_star (t : List α) :
    ∀ n, 1 ≤ n → globMatch star qm (List.replicate n star) t = true := by
  intro n
  induction n with
  | zero => omega
  | succ n ih =>
    intro _
    rw [List.replicate_succ, globMatch_star_iff]
    rcases Nat.eq_zero_or_pos n with h0 | hpos
    · subst h0
      exact ⟨t.length, Nat.le_refl _, by simp [globMatch]⟩
    · exact ⟨0, Nat.zero_le _, by simpa using ih hpos⟩

theorem globMatch_replicate_append (p t : List α) :
    ∀ n, 1 ≤ n →
      globMatch star qm (List.replicate n star ++ p) t = globMatch star qm (star :: p) t := by
  intro n
  induction n with
  | zero => omega
  | succ n ih =>
    intro _
    rcases Nat.eq_zero_or_pos n with h0 | hpos
    · subst h0; simp
    · obtain ⟨m, rfl⟩ : ∃ m, n = m + 1 := ⟨n - 1, by omega⟩
      rw [List.replicate_succ, List.cons_append, List.replicate_succ, List.cons_append,
        globMatch_star_star, ← List.cons_append, ← List.replicate_succ]
      exact ih (by omega)

omit [DecidableEq α] in
theorem drop_run_eq_replicate (w : List α) :
    ∀ n i, i + n ≤ w.length →
      (∀ k, i ≤ k → k < i + n → w.get? k = some star) →
      w.drop i = List.replicate n star ++ w.drop (i + n) := by
  intro n
  induction n with
  | zero => intro i _ _; simp
  | succ n ih =>
    intro i hlen hrun
    have hg : w.get? i = some star := hrun i (Nat.le_refl _) (by omega)
    rw [drop_cons_of_get? hg, List.replicate_succ, List.cons_append,
      show i + (n + 1) = (i + 1) + n by omega]
    rw [ih (i + 1) (by omega) (fun k hk1 hk2 => hrun k (by omega) (by omega))]

/-- A pattern suffix that begins with a nonempty `*` run behaves as a
single `*` followed by the suffix after the run. -/
theorem globMatch_run (w t : List α) {i j : Nat} (hij : i < j) (hj : j ≤ w.length)
    (hrun : ∀ k, i ≤ k → k < j → w.get? k = some star) :
    globMatch star qm (w.drop i) t = globMatch star qm (star :: w.drop j) t := by
  have hdec := drop_run_eq_replicate star w (j - i) i (by omega)
    (fun k hk1 hk2 => hrun k hk1 (by omega))
  rw [show i + (j - i) = j by omega] at hdec
  rw [hdec]
  exact globMatch_replicate_append star qm (w.drop j) t (j - i) (by omega)

/-- Peeling a pairwise-matched, star-free segment off the front of both
sequences preserves the verdict. -/
theorem globMatch_peel_seg (w t : List α) :
    ∀ Δ sW sT, sW + Δ ≤ w.length → sT + Δ ≤ t.length →
      (∀ d, d < Δ → w.get? (sW + d) ≠ some star ∧
        (w.get? (sW + d) = some qm ∨ w.get? (sW + d) = t.get? (sT + d))) →
      globMatch star qm (w.drop sW) (t.drop sT) =
        globMatch star qm (w.drop (sW + Δ)) (t.drop (sT + Δ)) := by
  intro Δ
  induction Δ with
  | zero => intro sW sT _ _ _; simp
  | succ Δ ih =>
    intro sW sT hW hT hseg
    obtain ⟨c, hc⟩ := get?_some_of_lt (l := w) (i := sW) (by omega)
    obtain ⟨x, hx⟩ := get?_some_of_lt (l := t) (i := sT) (by omega)
    have h0 := hseg 0 (by omega)
    rw [Nat.add_zero, Nat.add_zero, hc, hx] at h0
    have hcs : c ≠ star := fun h => h0.1 (by rw [h])
    have hcm : c = qm ∨ c = x := by
      rcases h0.2 with h | h
      · exact Or.inl (Option.some.inj h)
      · exact Or.inr (Option.some.inj h)
    rw [drop_cons_of_get? hc, drop_cons_of_get? hx,
      globMatch_cons_ne star qm hcs, if_pos hcm,
      show sW + (Δ + 1) = (sW + 1) + Δ by omega,
      show sT + (Δ + 1) = (sT + 1) + Δ by omega]
    refine ih (sW + 1) (sT + 1) (by omega) (by omega) (fun d hd => ?_)
    have := hseg (d + 1) (by omega)
    rwa [show sW + (d + 1) = sW + 1 + d by omega,
      show sT + (d + 1) = sT + 1 + d by omega] at this

/-- A star-free pattern segment consumes exactly its own length from any
subject it matches. -/
theorem globMatch_consume (w : List α) :
    ∀ Δ sW, sW + Δ ≤ w.length →
      (∀ d, d < Δ → w.get? (sW + d) ≠ some star) →
      ∀ u : List α, globMatch star qm (w.drop sW) u = true →
        Δ ≤ u.length ∧ globMatch star qm (w.drop (sW + Δ)) (u.drop Δ) = true := by
  intro Δ
  induction Δ with
  | zero => intro sW _ _ u h; simpa using h
  | succ Δ ih =>
    intro sW hW hstar u h
    obtain ⟨c, hc⟩ := get?_some_of_lt (l := w) (i := sW) (by omega)
    have hcs : c ≠ star := fun he => by
      have := hstar 0 (by omega)
      rw [Nat.add_zero, hc, he] at this
      exact this rfl
    rw [drop_cons_of_get? hc] at h
    cases u with
    | nil => rw [globMatch_cons_nil star qm hcs] at h; exact absurd h (by simp)
    | cons x u' =>
      rw [globMatch_cons_ne star qm hcs] at h
      by_cases hcm : c = qm ∨ c = x
      · rw [if_pos hcm] at h
        have hrec := ih (sW + 1) (by omega)
          (fun d hd => by
            have := hstar (d + 1) (by omega)
            rwa [show sW + (d + 1) = sW + 1 + d by omega] at this) u' h
        refine ⟨by simp; omega, ?_⟩
        rw [show sW + (Δ + 1) = sW + 1 + Δ by omega]
        simpa using hrec.2
      · rw [if_neg hcm] at h
        exact absurd h (by simp)

theorem globMatch_no_markers (p : List α) (hp : ∀ c ∈ p, c ≠ star ∧ c ≠ qm) :
    ∀ t : List α, globMatch star qm p t = decide (p = t) := by
  induction p with
  | nil => intro t; cases t <;> simp [globMatch]
  | cons c p ih =>
    intro t
    have hc := hp c (by simp)
    cases t with
    | nil => rw [globMatch_cons_nil star qm hc.1]; simp
    | cons x t =>
      rw [globMatch_cons_ne star qm hc.1]
      by_cases hcx : c = x
      · rw [if_pos (Or.inr hcx), ih (fun d hd => hp d (by simp [hd]))]
        subst hcx
        simp
      · rw [if_neg (by rintro (h | h); exacts [hc.2 h, hcx h])]
        simp [hcx]

theorem globMatch_self (s : List α) : globMatch star qm s s = true := by
  induction s with
  | nil => simp [globMatch]
  | cons c s ih =>
    by_cases hc : c = star
    · subst hc
      rw [globMatch_star_iff]
      exact ⟨1, by simp, by simpa using ih⟩
    · rw [globMatch_cons_ne star qm hc, if_pos (Or.inr rfl)]
      exact ih

/-- Patterns with pointwise-equal verdicts stay pointwise equal after
prepending a common symbol. -/
theorem globMatch_congr {p q : List α}
    (h : ∀ u, globMatch star qm p u = globMatch star qm q u) (c : α) (t : List α) :
    globMatch star qm (c :: p) t = globMatch star qm (c :: q) t := by
  by_cases hc : c = star
  · subst hc
    rw [Bool.eq_iff_iff, globMatch_star_iff, globMatch_star_iff]
    constructor
    · rintro ⟨j, hj, hg⟩; exact ⟨j, hj, by rwa [h] at hg⟩
    · rintro ⟨j, hj, hg⟩; exact ⟨j, hj, by rwa [← h] at hg⟩
  · cases t with
    | nil => rw [globMatch_cons_nil star qm hc, globMatch_cons_nil star qm hc]
    | cons x t =>
      rw [globMatch_cons_ne star qm hc, globMatch_cons_ne star qm hc, h]

theorem globMatch_collapseStarRuns (p : List α) :
    ∀ t, globMatch star qm (collapseStarRuns star p) t = globMatch star qm p t := by
  induction p with
  | nil => intro t; simp [collapseStarRuns]
  | cons c p ih =>
    intro t
    have hcons : collapseStarRuns star (c :: p) =
        match collapseStarRuns star p with
        | [] => [c]
        | d :: q => if c = star ∧ d = star then d :: q else c :: d :: q := rfl
    cases hcp : collapseStarRuns star p with
    | nil =>
      rw [hcons, hcp]
      exact globMatch_congr star qm (fun u => by rw [← ih u, hcp]) c t
    | cons d q =>
      rw [hcons, hcp]
      show globMatch star qm (if c = star ∧ d = star then d :: q else c :: d :: q) t = _
      by_cases hcd : c = star ∧ d = star
      · rw [if_pos hcd]
        obtain ⟨hc, hd⟩ := hcd
        rw [hc]
        rw [hd] at hcp ⊢
        calc globMatch star qm (star :: q) t
            = globMatch star qm (star :: star :: q) t := (globMatch_star_star star qm q t).symm
          _ = globMatch star qm (star :: collapseStarRuns star p) t := by rw [hcp]
          _ = globMatch star qm (star :: p) t :=
              globMatch_congr star qm (fun u => ih u) star t
      · rw [if_neg hcd]
        exact globMatch_congr star qm (fun u => by rw [← ih u, hcp]) c t

theorem globMatch_map_star_aux {β : Type} [DecidableEq β] (f : α → β) (p : List α)
    (hp : ∀ u : List α,
      globMatch (f star) (f qm) (p.map f) (u.map f) = globMatch star qm p u) :
    ∀ t, globMatch (f star) (f qm) (f star :: p.map f) (t.map f) =
      globMatch star qm (star :: p) t := by
  intro t
  induction t with
  | nil =>
    rw [List.map_nil, globMatch_star_nil (f star) (f qm), globMatch_star_nil star qm]
    simpa using hp []
  | cons x t iht =>
    rw [List.map_cons, globMatch_star_cons (f star) (f qm), globMatch_star_cons star qm,
      iht]
    have hx := hp (x :: t)
    rw [List.map_cons] at hx
    rw [hx]

/-- The reference semantics is invariant under an injective renaming of
symbols that is applied to the markers and both sequences alike. -/
theorem globMatch_map {β : Type} [DecidableEq β] (f : α → β) (hf : Function.Injective f)
    (p : List α) :
    ∀ t, globMatch (f star) (f qm) (p.map f) (t.map f) = globMatch star qm p t := by
  induction p with
  | nil => intro t; cases t <;> simp [globMatch]
  | cons c p ih =>
    intro t
    by_cases hc : c = star
    · rw [hc, List.map_cons]
      exact globMatch_map_star_aux star qm f p ih t
    · cases t with
      | nil =>
        rw [List.map_cons, List.map_nil, globMatch_cons_nil (f star) (f qm) (hf.ne hc),
          globMatch_cons_nil star qm hc]
      | cons x t =>
        rw [List.map_cons, List.map_cons, globMatch_cons_ne (f star) (f qm) (hf.ne hc),
          globMatch_cons_ne star qm hc]
        by_cases h : c = qm ∨ c = x
        · rw [if_pos (h.imp (fun e => by rw [e]) (fun e => by rw [e])), if_pos h, ih t]
        · rw [if_neg (fun hcon => h (hcon.imp (fun e => hf e) (fun e => hf e))), if_neg h]

/-! ### Characterizations of the embedded inner loops -/

theorem starTail_spec (w : List α) :
    ∀ fuel i, i < w.length → w.length - i ≤ fuel →
      starTail star w fuel i = .ok ((w.drop i).all (fun c => decide (c = star))) := by
  intro fuel
  induction fuel with
  | zero => intro i hi hf; omega
  | succ fuel ih =>
    intro i hi hf
    obtain ⟨c, hc⟩ := get?_some_of_lt hi
    rw [drop_cons_of_get? hc]
    simp only [starTail, hc, List.all_cons]
    by_cases hcs : c = star
    · rw [if_pos hcs]
      by_cases hend : w.length ≤ i + 1
      · rw [if_pos hend]
        rw [List.drop_eq_nil_iff.mpr hend]
        simp [hcs]
      · rw [if_neg hend, ih (i + 1) (by omega) (by omega)]
        simp [hcs]
    · rw [if_neg hcs]
      simp [hcs]

theorem collapseStars_spec (w : List α) :
    ∀ fuel i, i < w.length → w.length - i ≤ fuel →
      (∃ j, collapseStars star w fuel i = .ok (some j) ∧ i < j ∧ j < w.length ∧
        (∀ k, i < k → k < j → w.get? k = some star) ∧ w.get? j ≠ some star) ∨
      (collapseStars star w fuel i = .ok none ∧
        ∀ k, i < k → k < w.length → w.get? k = some star) := by
  intro fuel
  induction fuel with
  | zero => intro i hi hf; omega
  | succ fuel ih =>
    intro i hi hf
    by_cases hend : w.length ≤ i + 1
    · refine Or.inr ⟨?_, fun k hk1 hk2 => by omega⟩
      simp only [collapseStars, if_pos hend]
    · obtain ⟨c, hc⟩ := get?_some_of_lt (show i + 1 < w.length by omega)
      by_cases hcs : c = star
      · have hstep : collapseStars star w (fuel + 1) i = collapseStars star w fuel (i + 1) := by
          simp only [collapseStars, if_neg hend, hc]
          rw [if_neg (fun h => h hcs)]
        rcases ih (i + 1) (by omega) (by omega) with
          ⟨j, hrec, hij, hjW, hrun, hstop⟩ | ⟨hrec, hall⟩
        · refine Or.inl ⟨j, by rw [hstep]; exact hrec, by omega, hjW, ?_, hstop⟩
          intro k hk1 hk2
          rcases Nat.lt_or_ge k (i + 2) with hk | hk
          · obtain rfl : k = i + 1 := by omega
            rw [hc, hcs]
          · exact hrun k (by omega) hk2
        · refine Or.inr ⟨by rw [hstep]; exact hrec, ?_⟩
          intro k hk1 hk2
          rcases Nat.lt_or_ge k (i + 2) with hk | hk
          · obtain rfl : k = i + 1 := by omega
            rw [hc, hcs]
          · exact hall k (by omega) hk2
      · refine Or.inl ⟨i + 1, ?_, by omega, by omega, fun k hk1 hk2 => by omega, ?_⟩
        · simp only [collapseStars, if_neg hend, hc]
          rw [if_pos hcs]
        · rw [hc]
          exact fun hcon => hcs (Option.some.inj hcon)

theorem scanTame1_spec (c : α) (t : List α) :
    ∀ fuel i, i < t.length → t.length - i ≤ fuel →
      (∃ j, scanTame1 c t fuel i = .ok (some j) ∧ i ≤ j ∧ j < t.length ∧
        t.get? j = some c ∧ ∀ k, i ≤ k → k < j → t.get? k ≠ some c) ∨
      (scanTame1 c t fuel i = .ok none ∧
        ∀ k, i ≤ k → k < t.length → t.get? k ≠ some c) := by
  intro fuel
  induction fuel with
  | zero => intro i hi hf; omega
  | succ fuel ih =>
    intro i hi hf
    obtain ⟨x, hx⟩ := get?_some_of_lt hi
    by_cases hcx : c = x
    · refine Or.inl ⟨i, ?_, Nat.le_refl _, hi, by rw [hx, hcx], fun k hk1 hk2 => by omega⟩
      simp only [scanTame1, hx]
      rw [if_neg (fun h => h hcx)]
    · have hmis : t.get? i ≠ some c := by
        rw [hx]; exact fun hcon => hcx (Option.some.inj hcon).symm
      by_cases hend : t.length ≤ i + 1
      · refine Or.inr ⟨?_, ?_⟩
        · simp only [scanTame1, hx]
          rw [if_pos hcx, if_pos hend]
        · intro k hk1 hk2
          obtain rfl : k = i := by omega
          exact hmis
      · have hstep : scanTame1 c t (fuel + 1) i = scanTame1 c t fuel (i + 1) := by
          simp only [scanTame1, hx]
          rw [if_pos hcx, if_neg hend]
        rcases ih (i + 1) (by omega) (by omega) with
          ⟨j, hrec, hij, hjT, hfound, hmiss⟩ | ⟨hrec, hall⟩
        · refine Or.inl ⟨j, by rw [hstep]; exact hrec, by omega, hjT, hfound, ?_⟩
          intro k hk1 hk2
          rcases Nat.lt_or_ge k (i + 1) with hk | hk
          · obtain rfl : k = i := by omega
            exact hmis
          · exact hmiss k hk hk2
        · refine Or.inr ⟨by rw [hstep]; exact hrec, ?_⟩
          intro k hk1 hk2
          rcases Nat.lt_or_ge k (i + 1) with hk | hk
          · obtain rfl : k = i := by omega
            exact hmis
          · exact hall k hk hk2

theorem scanTame2_spec (c : α) (t : List α) :
    ∀ fuel i, i < t.length → t.length - i ≤ fuel →
      (∃ j, scanTame2 c t fuel i = .ok (some j) ∧ i ≤ j ∧ j < t.length ∧
        t.get? j = some c ∧ ∀ k, i ≤ k → k < j → t.get? k ≠ some c) ∨
      (scanTame2 c t fuel i = .ok none ∧
        ∀ k, i ≤ k → k < t.length → t.get? k ≠ some c) := by
  intro fuel
  induction fuel with
  | zero => intro i hi hf; omega
  | succ fuel ih =>
    intro i hi hf
    obtain ⟨x, hx⟩ := get?_some_of_lt hi
    by_cases hcx : c = x
    · refine Or.inl ⟨i, ?_, Nat.le_refl _, hi, by rw [hx, hcx], fun k hk1 hk2 => by omega⟩
      simp only [scanTame2]
      rw [if_neg (fun h => h.2 (by rw [hx, hcx]))]
    · have hmis : t.get? i ≠ some c := by
        rw [hx]; exact fun hcon => hcx (Option.some.inj hcon).symm
      have hguard : i < t.length ∧ some c ≠ t.get? i :=
        ⟨hi, fun hcon => hmis hcon.symm⟩
      by_cases hend : t.length ≤ i + 1
      · refine Or.inr ⟨?_, ?_⟩
        · simp only [scanTame2]
          rw [if_pos hguard, if_pos hend]
        · intro k hk1 hk2
          obtain rfl : k = i := by omega
          exact hmis
      · have hstep : scanTame2 c t (fuel + 1) i = scanTame2 c t fuel (i + 1) := by
          simp only [scanTame2]
          rw [if_pos hguard, if_neg hend]
        rcases ih (i + 1) (by omega) (by omega) with
          ⟨j, hrec, hij, hjT, hfound, hmiss⟩ | ⟨hrec, hall⟩
        · refine Or.inl ⟨j, by rw [hstep]; exact hrec, by omega, hjT, hfound, ?_⟩
          intro k hk1 hk2
          rcases Nat.lt_or_ge k (i + 1) with hk | hk
          · obtain rfl : k = i := by omega
            exact hmis
          · exact hmiss k hk hk2
        · refine Or.inr ⟨by rw [hstep]; exact hrec, ?_⟩
          intro k hk1 hk2
          rcases Nat.lt_or_ge k (i + 1) with hk | hk
          · obtain rfl : k = i := by omega
            exact hmis
          · exact hall k hk hk2

theorem skipQm_spec (w : List α) :
    ∀ fuel sW sT, sW ≤ w.length → w.length - sW < fuel →
      ∃ k, skipQm qm w fuel sW sT = .ok (sW + k, sT + k) ∧
        (∀ d, d < k → w.get? (sW + d) = some qm) ∧
        sW + k ≤ w.length ∧
        (w.length ≤ sW + k ∨ w.get? (sW + k) ≠ some qm) := by
  intro fuel
  induction fuel with
  | zero => intro sW sT h hf; omega
  | succ fuel ih =>
    intro sW sT hW hf
    by_cases hcond : sW < w.length ∧ w.get? sW = some qm
    · obtain ⟨k', hrec, hqm, hle, hstop⟩ := ih (sW + 1) (sT + 1) (by omega) (by omega)
      refine ⟨k' + 1, ?_, ?_, by omega, ?_⟩
      · simp only [skipQm]
        rw [if_pos hcond]
        rw [show sW + (k' + 1) = sW + 1 + k' by omega, show sT + (k' + 1) = sT + 1 + k' by omega]
        exact hrec
      · intro d hd
        cases d with
        | zero => simpa using hcond.2
        | succ d =>
          have := hqm d (by omega)
          rwa [show sW + 1 + d = sW + (d + 1) by omega] at this
      · rwa [show sW + 1 + k' = sW + (k' + 1) by omega] at hstop
    · refine ⟨0, ?_, fun d hd => by omega, by omega, ?_⟩
      · simp only [skipQm]
        rw [if_neg hcond, Nat.add_zero, Nat.add_zero]
      · rw [Nat.add_zero]
        by_cases hlt : sW < w.length
        · exact Or.inr (fun hcon => hcond ⟨hlt, hcon⟩)
        · exact Or.inl (by omega)

theorem fallback_spec (w t : List α) (iW : Nat) :
    ∀ fuel s, t.length - s < fuel →
      (∃ j, fallback w t iW fuel s = .ok (.inr j) ∧ s < j ∧ j < t.length ∧
        iW < w.length ∧ w.get? iW = t.get? j ∧
        ∀ k, s < k → k < j → ¬(iW < w.length ∧ w.get? iW = t.get? k)) ∨
      (fallback w t iW fuel s = .ok (.inl (decide (w.length ≤ iW))) ∧
        ∀ k, s < k → k < t.length → ¬(iW < w.length ∧ w.get? iW = t.get? k)) := by
  intro fuel
  induction fuel with
  | zero => intro s hf; omega
  | succ fuel ih =>
    intro s hf
    by_cases hend : t.length ≤ s + 1
    · refine Or.inr ⟨?_, fun k hk1 hk2 => by omega⟩
      simp only [fallback]
      rw [if_pos hend]
    · by_cases hcond : iW < w.length ∧ w.get? iW = t.get? (s + 1)
      · refine Or.inl ⟨s + 1, ?_, by omega, by omega, hcond.1, hcond.2,
          fun k hk1 hk2 => by omega⟩
        simp only [fallback]
        rw [if_neg hend, if_pos hcond]
      · have hstep : fallback w t iW (fuel + 1) s = fallback w t iW fuel (s + 1) := by
          simp only [fallback]
          rw [if_neg hend, if_neg hcond]
        rcases ih (s + 1) (by omega) with
          ⟨j, hrec, hsj, hjT, hiW, hfound, hmiss⟩ | ⟨hrec, hall⟩
        · refine Or.inl ⟨j, by rw [hstep]; exact hrec, by omega, hjT, hiW, hfound, ?_⟩
          intro k hk1 hk2
          rcases Nat.lt_or_ge k (s + 2) with hk | hk
          · obtain rfl : k = s + 1 := by omega
            exact hcond
          · exact hmiss k (by omega) hk2
        · refine Or.inr ⟨by rw [hstep]; exact hrec, ?_⟩
          intro k hk1 hk2
          rcases Nat.lt_or_ge k (s + 2) with hk | hk
          · obtain rfl : k = s + 1 := by omega
            exact hcond
          · exact hall k (by omega) hk2

/-! ### The backtracking measure -/

omit [DecidableEq α] in
theorem measure_lt (T sT iT sT' iT' : Nat)
    (h1 : sT ≤ iT) (h2 : sT' ≤ T) (h5 : iT ≤ T)
    (h4 : sT < sT' ∨ (sT = sT' ∧ iT < iT')) :
    (T - sT') * (T + 2) + (T + 1 - iT') < (T - sT) * (T + 2) + (T + 1 - iT) := by
  rcases h4 with h | ⟨heq, hlt⟩
  · have hmul : (T - sT') * (T + 2) + (T + 2) ≤ (T - sT) * (T + 2) := by
      have hle : T - sT' + 1 ≤ T - sT := by omega
      calc (T - sT') * (T + 2) + (T + 2) = (T - sT' + 1) * (T + 2) := by ring
        _ ≤ (T - sT) * (T + 2) := Nat.mul_le_mul_right _ hle
    omega
  · subst heq
    omega

omit [DecidableEq α] in
theorem measure_lt_fuel {T sT iT : Nat} :
    (T - sT) * (T + 2) + (T + 1 - iT) < (T + 2) * (T + 2) := by
  have h1 : (T - sT) * (T + 2) ≤ T * (T + 2) := Nat.mul_le_mul_right _ (by omega)
  have h2 : (T + 2) * (T + 2) = T * (T + 2) + 2 * (T + 2) := by ring
  omega

/-! ### Semantics of the backtracking `?`-skip -/

theorem qm_step (hsq : star ≠ qm) (w t : List α) {a b : Nat}
    (ha : w.get? a = some qm) :
    (∃ j, b + 1 ≤ j ∧ j ≤ t.length ∧
      globMatch star qm (w.drop a) (t.drop j) = true) ↔
    (∃ j, b + 1 + 1 ≤ j ∧ j ≤ t.length ∧
      globMatch star qm (w.drop (a + 1)) (t.drop j) = true) := by
  have hqs : qm ≠ star := fun h => hsq h.symm
  have hda : w.drop a = qm :: w.drop (a + 1) := drop_cons_of_get? ha
  constructor
  · rintro ⟨j, hj1, hj2, hg⟩
    rw [hda] at hg
    rcases Nat.lt_or_ge j t.length with hjT | hjT
    · obtain ⟨y, hy⟩ := get?_some_of_lt hjT
      rw [drop_cons_of_get? hy, globMatch_cons_ne star qm hqs, if_pos (Or.inl rfl)] at hg
      exact ⟨j + 1, by omega, by omega, hg⟩
    · obtain rfl : j = t.length := by omega
      rw [List.drop_length, globMatch_cons_nil star qm hqs] at hg
      exact absurd hg (by simp)
  · rintro ⟨j, hj1, hj2, hg⟩
    have hj1T : j - 1 < t.length := by omega
    obtain ⟨y, hy⟩ := get?_some_of_lt hj1T
    refine ⟨j - 1, by omega, by omega, ?_⟩
    rw [hda, drop_cons_of_get? hy, globMatch_cons_ne star qm hqs, if_pos (Or.inl rfl),
      show j - 1 + 1 = j by omega]
    exact hg

theorem skip_sem (hsq : star ≠ qm) (w t : List α) :
    ∀ k sW sT, (∀ d, d < k → w.get? (sW + d) = some qm) →
      ((∃ j, sT + 1 ≤ j ∧ j ≤ t.length ∧
        globMatch star qm (w.drop sW) (t.drop j) = true) ↔
       (∃ j, sT + k + 1 ≤ j ∧ j ≤ t.length ∧
        globMatch star qm (w.drop (sW + k)) (t.drop j) = true)) := by
  intro k
  induction k with
  | zero => intro sW sT _; simp
  | succ k ih =>
    intro sW sT hq
    have h0 : w.get? sW = some qm := by simpa using hq 0 (by omega)
    have step := qm_step star qm hsq w t (a := sW) (b := sT) h0
    have rec := ih (sW + 1) (sT + 1) (fun d hd => by
      have := hq (d + 1) (by omega)
      rwa [show sW + (d + 1) = sW + 1 + d by omega] at this)
    rw [show sW + (k + 1) = sW + 1 + k by omega,
      show sT + (k + 1) + 1 = sT + 1 + k + 1 by omega]
    exact step.trans rec

/-! ### Correctness of the lower loop -/

theorem loop2_spec (hsq : star ≠ qm) (w t : List α) :
    ∀ fuel iW iT sW sT,
      sW ≤ iW → sT ≤ iT → iW - sW = iT - sT → iW ≤ w.length → iT ≤ t.length →
      (∀ d, sW + d < iW →
        w.get? (sW + d) ≠ some star ∧
        (w.get? (sW + d) = some qm ∨ w.get? (sW + d) = t.get? (sT + d))) →
      (t.length - sT) * (t.length + 2) + (t.length + 1 - iT) < fuel →
      ∃ b, loop2 star qm w t fuel iW iT sW sT = .ok b ∧
        (b = true ↔ ∃ j, sT ≤ j ∧ j ≤ t.length ∧
          globMatch star qm (w.drop sW) (t.drop j) = true) := by
  intro fuel
  induction fuel with
  | zero => intro iW iT sW sT _ _ _ _ _ _ hfuel; omega
  | succ fuel ih =>
    intro iW iT sW sT hsw hst hlock hWb hTb hseg hfuel
    have hiT : iT = sT + (iW - sW) := by omega
    have hpeel : globMatch star qm (w.drop sW) (t.drop sT) =
        globMatch star qm (w.drop iW) (t.drop iT) := by
      have := globMatch_peel_seg star qm w t (iW - sW) sW sT (by omega) (by omega)
        (fun d hd => hseg d (by omega))
      rwa [show sW + (iW - sW) = iW by omega, show sT + (iW - sW) = iT by omega] at this
    by_cases hstar : iW < w.length ∧ w.get? iW = some star
    · -- the pattern cursor sits on a `*`: lines 94-126
      obtain ⟨hiWlt, hiWstar⟩ := hstar
      rcases collapseStars_spec star w (w.length + 1) iW hiWlt (by omega) with
        ⟨j', hcol, hij', hj'W, hrun, hstop⟩ | ⟨hcol, hall⟩
      · -- the star run ends at a symbol `c''` at position `j' < length`
        obtain ⟨c'', hc''⟩ := get?_some_of_lt hj'W
        have hc''star : c'' ≠ star := fun he => hstop (by rw [hc'', he])
        have hrunEq : ∀ u, globMatch star qm (w.drop iW) u =
            globMatch star qm (star :: w.drop j') u := by
          intro u
          refine globMatch_run star qm w u hij' (Nat.le_of_lt hj'W) (fun k hk1 hk2 => ?_)
          rcases Nat.lt_or_ge iW k with hk | hk
          · exact hrun k hk hk2
          · obtain rfl : k = iW := by omega
            exact hiWstar
        -- the central equivalence: reachability from the old checkpoint equals
        -- reachability of the post-run pattern from the current subject position
        have E : (∃ j, sT ≤ j ∧ j ≤ t.length ∧
              globMatch star qm (w.drop sW) (t.drop j) = true) ↔
            (∃ m, iT ≤ m ∧ m ≤ t.length ∧
              globMatch star qm (w.drop j') (t.drop m) = true) := by
          constructor
          · rintro ⟨j, hj1, hj2, hg⟩
            obtain ⟨hlen, hg'⟩ := globMatch_consume star qm w (iW - sW) sW (by omega)
              (fun d hd => (hseg d (by omega)).1) (t.drop j) hg
            rw [List.length_drop] at hlen
            rw [List.drop_drop, show sW + (iW - sW) = iW by omega, hrunEq] at hg'
            obtain ⟨m, hm1, hm2, hgm⟩ :=
              (globMatch_star_drop star qm (w.drop j') t (j + (iW - sW)) (by omega)).mp hg'
            exact ⟨m, by omega, hm2, hgm⟩
          · rintro ⟨m, hm1, hm2, hgm⟩
            have hstarhead : globMatch star qm (star :: w.drop j') (t.drop iT) = true :=
              (globMatch_star_drop star qm (w.drop j') t iT hTb).mpr ⟨m, hm1, hm2, hgm⟩
            refine ⟨sT, Nat.le_refl _, by omega, ?_⟩
            rw [hpeel, hrunEq]
            exact hstarhead
        by_cases hTle : t.length ≤ iT
        · -- line 108: the subject is already exhausted; return false
          refine ⟨false, ?_, ?_⟩
          · simp only [loop2]
            rw [if_pos ⟨hiWlt, hiWstar⟩]
            simp only [hcol]
            rw [if_pos hTle]
          · constructor
            · intro h; exact absurd h (by simp)
            · intro hr
              obtain ⟨m, hm1, hm2, hgm⟩ := E.mp hr
              obtain rfl : m = t.length := by omega
              rw [List.drop_length, drop_cons_of_get? hc'',
                globMatch_cons_nil star qm hc''star] at hgm
              exact absurd hgm (by simp)
        · by_cases hc''qm : c'' ≠ qm
          · -- scan the subject for the literal c''
            rcases scanTame2_spec c'' t (t.length + 1) iT (by omega) (by omega) with
              ⟨j₀, hscan, hiTj₀, hj₀T, hfound, hmiss⟩ | ⟨hscan, hall2⟩
            · -- found at j₀: the new checkpoint
              have E' : (∃ m, iT ≤ m ∧ m ≤ t.length ∧
                    globMatch star qm (w.drop j') (t.drop m) = true) ↔
                  (∃ m, j₀ ≤ m ∧ m ≤ t.length ∧
                    globMatch star qm (w.drop j') (t.drop m) = true) := by
                constructor
                · rintro ⟨m, hm1, hm2, hgm⟩
                  rcases Nat.lt_or_ge m j₀ with hm | hm
                  · obtain ⟨y, hy⟩ := get?_some_of_lt (show m < t.length by omega)
                    have hyne : c'' ≠ y := fun he =>
                      hmiss m hm1 hm (by rw [hy, he])
                    rw [drop_cons_of_get? hc'', drop_cons_of_get? hy,
                      globMatch_cons_ne star qm hc''star,
                      if_neg (by rintro (h | h); exacts [hc''qm h, hyne h])] at hgm
                    exact absurd hgm (by simp)
                  · exact ⟨m, hm, hm2, hgm⟩
                · rintro ⟨m, hm1, hm2, hgm⟩
                  exact ⟨m, by omega, hm2, hgm⟩
              obtain ⟨b, hb, hbiff⟩ := ih (j' + 1) (j₀ + 1) j' j₀
                (by omega) (by omega) (by omega) (by omega) (by omega)
                (fun d hd => by
                  obtain rfl : d = 0 := by omega
                  rw [Nat.add_zero, Nat.add_zero, hc'']
                  exact ⟨fun hcon => hc''star (Option.some.inj hcon),
                    Or.inr (by rw [hfound])⟩)
                (by
                  have hmlt := measure_lt t.length sT iT j₀ (j₀ + 1)
                    hst (by omega) (by omega)
                    (by
                      rcases Nat.lt_or_ge sT j₀ with h | h
                      · exact Or.inl h
                      · exact Or.inr ⟨by omega, by omega⟩)
                  omega)
              refine ⟨b, ?_, hbiff.trans (E.trans E').symm⟩
              simp only [loop2]
              rw [if_pos ⟨hiWlt, hiWstar⟩]
              simp only [hcol]
              rw [if_neg hTle]
              simp only [hc'']
              rw [if_pos hc''qm]
              simp only [hscan]
              rw [if_neg (show ¬(t.length ≤ j₀) by omega)]
              exact hb
            · -- the literal never reappears: return false
              refine ⟨false, ?_, ?_⟩
              · simp only [loop2]
                rw [if_pos ⟨hiWlt, hiWstar⟩]
                simp only [hcol]
                rw [if_neg hTle]
                simp only [hc'']
                rw [if_pos hc''qm]
                simp only [hscan]
              · constructor
                · intro h; exact absurd h (by simp)
                · intro hr
                  obtain ⟨m, hm1, hm2, hgm⟩ := E.mp hr
                  rcases Nat.lt_or_ge m t.length with hm | hm
                  · obtain ⟨y, hy⟩ := get?_some_of_lt hm
                    have hyne : c'' ≠ y := fun he =>
                      hall2 m hm1 hm (by rw [hy, he])
                    rw [drop_cons_of_get? hc'', drop_cons_of_get? hy,
                      globMatch_cons_ne star qm hc''star,
                      if_neg (by rintro (h | h); exacts [hc''qm h, hyne h])] at hgm
                    exact absurd hgm (by simp)
                  · obtain rfl : m = t.length := by omega
                    rw [List.drop_length, drop_cons_of_get? hc'',
                      globMatch_cons_nil star qm hc''star] at hgm
                    exact absurd hgm (by simp)
          · -- the symbol after the run is `?`: no scan, new checkpoint here
            have hc''qm' : c'' = qm := not_not.mp hc''qm
            obtain ⟨b, hb, hbiff⟩ := ih (j' + 1) (iT + 1) j' iT
              (by omega) (by omega) (by omega) (by omega) (by omega)
              (fun d hd => by
                obtain rfl : d = 0 := by omega
                rw [Nat.add_zero, hc'', hc''qm']
                exact ⟨fun hcon => hsq (Option.some.inj hcon).symm, Or.inl rfl⟩)
              (by
                have hmlt := measure_lt t.length sT iT iT (iT + 1)
                  hst (by omega) (by omega)
                  (by
                    rcases Nat.lt_or_ge sT iT with h | h
                    · exact Or.inl h
                    · exact Or.inr ⟨by omega, by omega⟩)
                omega)
            refine ⟨b, ?_, hbiff.trans E.symm⟩
            simp only [loop2]
            rw [if_pos ⟨hiWlt, hiWstar⟩]
            simp only [hcol]
            rw [if_neg hTle]
            simp only [hc'']
            rw [if_neg hc''qm, if_neg hTle]
            exact hb
      · -- the pattern is exhausted by the star run: return true
        refine ⟨true, ?_, ?_⟩
        · simp only [loop2]
          rw [if_pos ⟨hiWlt, hiWstar⟩]
          simp only [hcol]
        · have hrep : w.drop iW = List.replicate (w.length - iW) star := by
            have hdec := drop_run_eq_replicate star w (w.length - iW) iW (by omega)
              (fun k hk1 hk2 => by
                rcases Nat.lt_or_ge iW k with hk | hk
                · exact hall k hk (by omega)
                · obtain rfl : k = iW := by omega
                  exact hiWstar)
            rwa [show iW + (w.length - iW) = w.length by omega, List.drop_length,
              List.append_nil] at hdec
          refine ⟨fun _ => ⟨sT, Nat.le_refl _, by omega, ?_⟩, fun _ => rfl⟩
          rw [hpeel, hrep]
          exact globMatch_replicate_star star qm (t.drop iT) (w.length - iW) (by omega)
    · -- the pattern cursor is not on a `*`: lines 127-168
      have hnostar : iW < w.length → w.get? iW ≠ some star :=
        fun h hcon => hstar ⟨h, hcon⟩
      by_cases hTle : t.length ≤ iT
      · -- lines 129-135: the subject is exhausted
        refine ⟨decide (w.length ≤ iW), ?_, ?_⟩
        · simp only [loop2]
          rw [if_neg hstar, if_pos hTle]
        · by_cases hWle : w.length ≤ iW
          · constructor
            · intro _
              refine ⟨sT, Nat.le_refl _, by omega, ?_⟩
              rw [hpeel, List.drop_eq_nil_iff.mpr hWle, List.drop_eq_nil_iff.mpr hTle,
                globMatch_nil_left]
              rfl
            · intro _
              exact decide_eq_true hWle
          · obtain ⟨c, hc⟩ := get?_some_of_lt (show iW < w.length by omega)
            have hcs : c ≠ star := fun he => hnostar (by omega) (by rw [hc, he])
            constructor
            · intro hdec
              rw [decide_eq_false hWle] at hdec
              exact absurd hdec (by simp)
            · rintro ⟨j, hj1, hj2, hg⟩
              obtain ⟨hlen, hg'⟩ := globMatch_consume star qm w (iW - sW) sW (by omega)
                (fun d hd => (hseg d (by omega)).1) (t.drop j) hg
              rw [List.length_drop] at hlen
              rw [List.drop_drop, show sW + (iW - sW) = iW by omega,
                (List.drop_eq_nil_iff (l := t) (k := j + (iW - sW))).mpr (by omega),
                drop_cons_of_get? hc, globMatch_cons_nil star qm hcs] at hg'
              exact absurd hg' (by simp)
      · by_cases hmis : w.length ≤ iW ∨
            (w.get? iW ≠ t.get? iT ∧ w.get? iW ≠ some qm)
        · -- mismatch: back track (lines 137-168)
          have hdirfalse : globMatch star qm (w.drop iW) (t.drop iT) = false := by
            obtain ⟨y, hy⟩ := get?_some_of_lt (show iT < t.length by omega)
            rcases Nat.lt_or_ge iW w.length with hiWW | hWle
            · have hright := hmis.resolve_left (by omega)
              obtain ⟨c, hc⟩ := get?_some_of_lt hiWW
              have hcs : c ≠ star := fun he => hnostar hiWW (by rw [hc, he])
              have hcq : c ≠ qm := fun he => hright.2 (by rw [hc, he])
              have hcy : c ≠ y := fun he => hright.1 (by rw [hc, hy, he])
              rw [drop_cons_of_get? hc, drop_cons_of_get? hy,
                globMatch_cons_ne star qm hcs,
                if_neg (by rintro (h | h); exacts [hcq h, hcy h])]
            · rw [List.drop_eq_nil_iff.mpr hWle, globMatch_nil_left,
                drop_cons_of_get? hy]
              rfl
          have hR1 : (∃ j, sT ≤ j ∧ j ≤ t.length ∧
                globMatch star qm (w.drop sW) (t.drop j) = true) ↔
              (∃ j, sT + 1 ≤ j ∧ j ≤ t.length ∧
                globMatch star qm (w.drop sW) (t.drop j) = true) := by
            constructor
            · rintro ⟨j, hj1, hj2, hg⟩
              rcases Nat.lt_or_ge sT j with hj | hj
              · exact ⟨j, by omega, hj2, hg⟩
              · obtain rfl : j = sT := by omega
                rw [hpeel, hdirfalse] at hg
                exact absurd hg (by simp)
            · rintro ⟨j, hj1, hj2, hg⟩
              exact ⟨j, by omega, hj2, hg⟩
          obtain ⟨k, hskip, hqmrun, hskle, hskstop⟩ :=
            skipQm_spec qm w (w.length + 1) sW sT (by omega) (by omega)
          have hkΔ : k ≤ iW - sW := by
            by_contra hgt
            push_neg at hgt
            have hqmiW := hqmrun (iW - sW) hgt
            rw [Nat.add_sub_cancel' hsw] at hqmiW
            have hiWW : iW < w.length := by
              by_contra hno
              rw [List.get?_eq_none.mpr (by omega)] at hqmiW
              exact Option.noConfusion hqmiW
            rcases hmis with hWle | ⟨_, hnq⟩
            · omega
            · exact hnq hqmiW
          have hskipsem := skip_sem star qm hsq w t k sW sT hqmrun
          have hckpt : sW + k < w.length →
              w.get? (sW + k) ≠ some star ∧ w.get? (sW + k) ≠ some qm := by
            intro hlt
            constructor
            · rcases Nat.lt_or_ge k (iW - sW) with hk | hk
              · refine (hseg k ?_).1
                clear * - hk hsw
                omega
              · have hEq : sW + k = iW := by
                  clear * - hk hkΔ hsw
                  omega
                rw [hEq]
                rw [hEq] at hlt
                exact hnostar hlt
            · rcases hskstop with h | h
              · omega
              · exact h
          rcases fallback_spec w t (sW + k) (t.length + 1) (sT + k) (by omega) with
            ⟨j₀, hfb, hsj₀, hj₀T, hsWkW, hfound, hmissfb⟩ | ⟨hfb, hallfb⟩
          · -- the fallback loop breaks at j₀: resume from the new checkpoint
            have hR3 : (∃ j, sT + k + 1 ≤ j ∧ j ≤ t.length ∧
                  globMatch star qm (w.drop (sW + k)) (t.drop j) = true) ↔
                (∃ j, j₀ ≤ j ∧ j ≤ t.length ∧
                  globMatch star qm (w.drop (sW + k)) (t.drop j) = true) := by
              obtain ⟨hcks, hckq⟩ := hckpt hsWkW
              obtain ⟨c, hc⟩ := get?_some_of_lt hsWkW
              have hcs : c ≠ star := fun he => hcks (by rw [hc, he])
              have hcq : c ≠ qm := fun he => hckq (by rw [hc, he])
              constructor
              · rintro ⟨j, hj1, hj2, hg⟩
                rcases Nat.lt_or_ge j j₀ with hj | hj
                · obtain ⟨y, hy⟩ := get?_some_of_lt (show j < t.length by omega)
                  have hne := hmissfb j (by omega) hj
                  have hcy : c ≠ y := fun he =>
                    hne ⟨hsWkW, by rw [hc, hy, he]⟩
                  rw [drop_cons_of_get? hc, drop_cons_of_get? hy,
                    globMatch_cons_ne star qm hcs,
                    if_neg (by rintro (h | h); exacts [hcq h, hcy h])] at hg
                  exact absurd hg (by simp)
                · exact ⟨j, hj, hj2, hg⟩
              · rintro ⟨j, hj1, hj2, hg⟩
                exact ⟨j, by omega, hj2, hg⟩
            obtain ⟨b, hb, hbiff⟩ := ih (sW + k + 1) (j₀ + 1) (sW + k) j₀
              (by omega) (by omega) (by omega) (by omega) (by omega)
              (fun d hd => by
                obtain rfl : d = 0 := by omega
                rw [Nat.add_zero, Nat.add_zero]
                exact ⟨(hckpt hsWkW).1, Or.inr hfound⟩)
              (by
                have hmlt := measure_lt t.length sT iT j₀ (j₀ + 1)
                  hst (by omega) (by omega) (Or.inl (by omega))
                omega)
            refine ⟨b, ?_, hbiff.trans ((hR1.trans hskipsem).trans hR3).symm⟩
            simp only [loop2]
            rw [if_neg hstar, if_neg hTle, if_pos hmis]
            simp only [hskip, hfb]
            rw [if_neg (show ¬(t.length ≤ j₀) by omega)]
            exact hb
          · -- the fallback loop exhausts the subject: return (length ≤ checkpoint)
            refine ⟨decide (w.length ≤ sW + k), ?_, ?_⟩
            · simp only [loop2]
              rw [if_neg hstar, if_neg hTle, if_pos hmis]
              simp only [hskip, hfb]
            · by_cases hWk : w.length ≤ sW + k
              · constructor
                · intro _
                  refine (hR1.trans hskipsem).mpr ⟨t.length, by omega, Nat.le_refl _, ?_⟩
                  rw [List.drop_eq_nil_iff.mpr hWk, List.drop_length, globMatch_nil_left]
                  rfl
                · intro _
                  exact decide_eq_true hWk
              · obtain ⟨hcks, hckq⟩ := hckpt (by omega)
                obtain ⟨c, hc⟩ := get?_some_of_lt (show sW + k < w.length by omega)
                have hcs : c ≠ star := fun he => hcks (by rw [hc, he])
                have hcq : c ≠ qm := fun he => hckq (by rw [hc, he])
                constructor
                · intro hdec
                  rw [decide_eq_false hWk] at hdec
                  exact absurd hdec (by simp)
                · intro hr
                  obtain ⟨j, hj1, hj2, hg⟩ := (hR1.trans hskipsem).mp hr
                  rcases Nat.lt_or_ge j t.length with hj | hj
                  · obtain ⟨y, hy⟩ := get?_some_of_lt hj
                    have hne := hallfb j (by omega) hj
                    have hcy : c ≠ y := fun he =>
                      hne ⟨by omega, by rw [hc, hy, he]⟩
                    rw [drop_cons_of_get? hc, drop_cons_of_get? hy,
                      globMatch_cons_ne star qm hcs,
                      if_neg (by rintro (h | h); exacts [hcq h, hcy h])] at hg
                    exact absurd hg (by simp)
                  · obtain rfl : j = t.length := by omega
                    rw [List.drop_length, drop_cons_of_get? hc,
                      globMatch_cons_nil star qm hcs] at hg
                    exact absurd hg (by simp)
        · -- no mismatch: consume one symbol from each sequence
          push_neg at hmis
          have hmatch : w.get? iW = some qm ∨ w.get? iW = t.get? iT := by
            by_cases heq : w.get? iW = t.get? iT
            · exact Or.inr heq
            · exact Or.inl (hmis.2 heq)
          obtain ⟨b, hb, hbiff⟩ := ih (iW + 1) (iT + 1) sW sT
            (by omega) (by omega) (by omega) (by omega) (by omega)
            (fun d hd => by
              rcases Nat.lt_or_ge (sW + d) iW with h | h
              · exact hseg d h
              · have hEq : sW + d = iW := by omega
                have hEq2 : sT + d = iT := by omega
                rw [hEq, hEq2]
                exact ⟨hnostar hmis.1, hmatch⟩)
            (by
              have hmlt := measure_lt t.length sT iT sT (iT + 1)
                hst (by omega) (by omega) (Or.inr ⟨rfl, by omega⟩)
              omega)
          refine ⟨b, ?_, hbiff⟩
          simp only [loop2]
          rw [if_neg hstar, if_neg hTle]
          rw [if_neg (show ¬(w.length ≤ iW ∨
            (w.get? iW ≠ t.get? iT ∧ w.get? iW ≠ some qm)) by
              rintro (h | h)
              · have := hmis.1
                omega
              · rcases hmatch with h2 | h2
                · exact h.2 h2
                · exact h.1 h2)]
          rw [if_neg hTle]
          exact hb

/-! ### Correctness of the upper loop and of the whole matcher -/

theorem loop1_spec (hsq : star ≠ qm) (w t : List α) :
    ∀ fuel i, i ≤ w.length → i ≤ t.length → t.length - i < fuel →
      loop1 star qm w t fuel i =
        .ok (globMatch star qm (w.drop i) (t.drop i)) := by
  intro fuel
  induction fuel with
  | zero => intro i _ _ h; omega
  | succ fuel ih =>
    intro i hiW hiT hf
    by_cases hTle : t.length ≤ i
    · by_cases hWgt : i < w.length
      · have heq : loop1 star qm w t (fuel + 1) i = starTail star w (w.length + 1) i := by
          simp only [loop1]
          rw [if_pos hTle, if_pos hWgt]
        rw [heq, starTail_spec star w (w.length + 1) i hWgt (by omega),
          List.drop_eq_nil_iff.mpr hTle, globMatch_nil_right]
      · have heq : loop1 star qm w t (fuel + 1) i = .ok true := by
          simp only [loop1]
          rw [if_pos hTle, if_neg hWgt]
        rw [heq, List.drop_eq_nil_iff.mpr (show w.length ≤ i by omega),
          List.drop_eq_nil_iff.mpr hTle, globMatch_nil_left]
        rfl
    · by_cases hWle : w.length ≤ i
      · obtain ⟨y, hy⟩ := get?_some_of_lt (show i < t.length by omega)
        have heq : loop1 star qm w t (fuel + 1) i = .ok false := by
          simp only [loop1]
          rw [if_neg hTle, if_pos hWle]
        rw [heq, List.drop_eq_nil_iff.mpr hWle, globMatch_nil_left,
          drop_cons_of_get? hy]
        rfl
      · obtain ⟨c, hc⟩ := get?_some_of_lt (show i < w.length by omega)
        by_cases hcs : c = star
        · -- first `*` found (lines 54-84): set up the checkpoint
          have hcstar : w.get? i = some star := by rw [hc, hcs]
          rcases collapseStars_spec star w (w.length + 1) i (by omega) (by omega) with
            ⟨j', hcol, hij', hj'W, hrun, hstop⟩ | ⟨hcol, hall⟩
          · obtain ⟨c'', hc''⟩ := get?_some_of_lt hj'W
            have hc''star : c'' ≠ star := fun he => hstop (by rw [hc'', he])
            have hrunEq : ∀ u, globMatch star qm (w.drop i) u =
                globMatch star qm (star :: w.drop j') u := by
              intro u
              refine globMatch_run star qm w u hij' (Nat.le_of_lt hj'W)
                (fun k hk1 hk2 => ?_)
              rcases Nat.lt_or_ge i k with hk | hk
              · exact hrun k hk hk2
              · obtain rfl : k = i := by omega
                exact hcstar
            have hiffstar : globMatch star qm (w.drop i) (t.drop i) = true ↔
                ∃ m, i ≤ m ∧ m ≤ t.length ∧
                  globMatch star qm (w.drop j') (t.drop m) = true := by
              rw [hrunEq]
              exact globMatch_star_drop star qm (w.drop j') t i (by omega)
            by_cases hc''qm : c'' ≠ qm
            · rcases scanTame1_spec c'' t (t.length + 1) i (by omega) (by omega) with
                ⟨j₀, hscan, hij₀, hj₀T, hfound, hmiss⟩ | ⟨hscan, hall2⟩
              · obtain ⟨b, hb, hbiff⟩ := loop2_spec star qm hsq w t
                  ((t.length + 2) * (t.length + 2)) j' j₀ j' j₀
                  (Nat.le_refl _) (Nat.le_refl _) (by omega) (by omega) (by omega)
                  (fun d hd => absurd hd (by omega)) measure_lt_fuel
                have heq : loop1 star qm w t (fuel + 1) i = loop2 star qm w t
                    ((t.length + 2) * (t.length + 2)) j' j₀ j' j₀ := by
                  simp only [loop1]
                  rw [if_neg hTle, if_neg hWle, if_pos hcstar]
                  simp only [hcol, hc'']
                  rw [if_pos hc''qm]
                  simp only [hscan]
                rw [heq, hb]
                refine congrArg Except.ok ?_
                rw [Bool.eq_iff_iff, hbiff, hiffstar]
                constructor
                · rintro ⟨m, hm1, hm2, hg⟩
                  exact ⟨m, by omega, hm2, hg⟩
                · rintro ⟨m, hm1, hm2, hg⟩
                  rcases Nat.lt_or_ge m j₀ with hm | hm
                  · obtain ⟨y, hy⟩ := get?_some_of_lt (show m < t.length by omega)
                    have hyne : c'' ≠ y := fun he =>
                      hmiss m hm1 hm (by rw [hy, he])
                    rw [drop_cons_of_get? hc'', drop_cons_of_get? hy,
                      globMatch_cons_ne star qm hc''star,
                      if_neg (by rintro (h | h); exacts [hc''qm h, hyne h])] at hg
                    exact absurd hg (by simp)
                  · exact ⟨m, hm, hm2, hg⟩
              · have heq : loop1 star qm w t (fuel + 1) i = .ok false := by
                  simp only [loop1]
                  rw [if_neg hTle, if_neg hWle, if_pos hcstar]
                  simp only [hcol, hc'']
                  rw [if_pos hc''qm]
                  simp only [hscan]
                rw [heq]
                refine congrArg Except.ok ?_
                rcases Bool.eq_false_or_eq_true
                    (globMatch star qm (w.drop i) (t.drop i)) with h | h
                · exfalso
                  obtain ⟨m, hm1, hm2, hg⟩ := hiffstar.mp h
                  rcases Nat.lt_or_ge m t.length with hm | hm
                  · obtain ⟨y, hy⟩ := get?_some_of_lt hm
                    have hyne : c'' ≠ y := fun he =>
                      hall2 m hm1 hm (by rw [hy, he])
                    rw [drop_cons_of_get? hc'', drop_cons_of_get? hy,
                      globMatch_cons_ne star qm hc''star,
                      if_neg (by rintro (h' | h'); exacts [hc''qm h', hyne h'])] at hg
                    exact absurd hg (by simp)
                  · obtain rfl : m = t.length := by omega
                    rw [List.drop_length, drop_cons_of_get? hc'',
                      globMatch_cons_nil star qm hc''star] at hg
                    exact absurd hg (by simp)
                · exact h.symm
            · obtain ⟨b, hb, hbiff⟩ := loop2_spec star qm hsq w t
                ((t.length + 2) * (t.length + 2)) j' i j' i
                (Nat.le_refl _) (Nat.le_refl _) (by omega) (by omega) (by omega)
                (fun d hd => absurd hd (by omega)) measure_lt_fuel
              have heq : loop1 star qm w t (fuel + 1) i = loop2 star qm w t
                  ((t.length + 2) * (t.length + 2)) j' i j' i := by
                simp only [loop1]
                rw [if_neg hTle, if_neg hWle, if_pos hcstar]
                simp only [hcol, hc'']
                rw [if_neg hc''qm]
              rw [heq, hb]
              refine congrArg Except.ok ?_
              rw [Bool.eq_iff_iff, hbiff, hiffstar]
          · have heq : loop1 star qm w t (fuel + 1) i = .ok true := by
              simp only [loop1]
              rw [if_neg hTle, if_neg hWle, if_pos hcstar]
              simp only [hcol]
            have hrep : w.drop i = List.replicate (w.length - i) star := by
              have hdec := drop_run_eq_replicate star w (w.length - i) i (by omega)
                (fun k hk1 hk2 => by
                  rcases Nat.lt_or_ge i k with hk | hk
                  · exact hall k hk (by omega)
                  · obtain rfl : k = i := by omega
                    exact hcstar)
              rwa [show i + (w.length - i) = w.length by omega, List.drop_length,
                List.append_nil] at hdec
            rw [heq, hrep,
              globMatch_replicate_star star qm (t.drop i) (w.length - i) (by omega)]
        · -- literal or `?` comparison (lines 85-89)
          obtain ⟨x, hx⟩ := get?_some_of_lt (show i < t.length by omega)
          have hcstar' : w.get? i ≠ some star := by
            rw [hc]
            exact fun hcon => hcs (Option.some.inj hcon)
          by_cases hmm : c ≠ x ∧ c ≠ qm
          · have heq : loop1 star qm w t (fuel + 1) i = .ok false := by
              simp only [loop1]
              rw [if_neg hTle, if_neg hWle, if_neg hcstar']
              simp only [hc, hx]
              rw [if_pos hmm]
            rw [heq, drop_cons_of_get? hc, drop_cons_of_get? hx,
              globMatch_cons_ne star qm hcs,
              if_neg (by rintro (h | h); exacts [hmm.2 h, hmm.1 h])]
          · have heq : loop1 star qm w t (fuel + 1) i =
                loop1 star qm w t fuel (i + 1) := by
              simp only [loop1]
              rw [if_neg hTle, if_neg hWle, if_neg hcstar']
              simp only [hc, hx]
              rw [if_neg hmm]
            rw [heq, ih (i + 1) (by omega) (by omega) (by omega),
              drop_cons_of_get? hc, drop_cons_of_get? hx,
              globMatch_cons_ne star qm hcs,
              if_pos (show c = qm ∨ c = x by
                by_cases hcx : c = x
                · exact Or.inr hcx
                · by_cases hcq : c = qm
                  · exact Or.inl hcq
                  · exact absurd ⟨hcx, hcq⟩ hmm)]

/-- The whole matcher agrees with the reference glob semantics, for any
symbol type and any distinct pair of wildcard markers. -/
theorem fastWildCompareCore_spec (hsq : star ≠ qm) (w t : List α) :
    fastWildCompareCore star qm w t = .ok (globMatch star qm w t) := by
  simp only [fastWildCompareCore]
  rw [loop1_spec star qm hsq w t (w.length + t.length + 2) 0 (by omega) (by omega)
    (by omega), List.drop_zero, List.drop_zero]

/-! ### The claims -/

/-- Claim C1: for every pattern and subject, `FastWildCompareAscii` (and
likewise `FastWildCompareRuneSlices`) returns true if and only if the
subject matches the pattern under the reference glob semantics
`globMatch`, whose `*` case is an exhaustive search over splits. -/
theorem C1_matcher_agrees_with_glob_semantics :
    (∀ strWild strTame : List Nat,
      (FastWildCompareAscii strWild strTame = .ok true ↔
        globMatch 42 63 strWild strTame = true)) ∧
    (∀ rslcWild rslcTame : List Char,
      (FastWildCompareRuneSlices rslcWild rslcTame = .ok true ↔
        globMatch '*' '?' rslcWild rslcTame = true)) := by
  constructor
  · intro w t
    simp only [FastWildCompareAscii]
    rw [fastWildCompareCore_spec 42 63 (by decide) w t]
    exact ⟨fun h => Except.ok.inj h, fun h => by rw [h]⟩
  · intro w t
    simp only [FastWildCompareRuneSlices]
    rw [fastWildCompareCore_spec '*' '?' (by decide) w t]
    exact ⟨fun h => Except.ok.inj h, fun h => by rw [h]⟩

/-- Claim C2: both matchers are total: every input pair (including empty
ones) yields a boolean result — never the fuel-exhaustion outcome that
models non-termination, and never a panic. -/
theorem C2_matcher_total :
    (∀ strWild strTame : List Nat,
      ∃ b, FastWildCompareAscii strWild strTame = .ok b) ∧
    (∀ rslcWild rslcTame : List Char,
      ∃ b, FastWildCompareRuneSlices rslcWild rslcTame = .ok b) :=
  ⟨fun w t => ⟨globMatch 42 63 w t, fastWildCompareCore_spec 42 63 (by decide) w t⟩,
   fun w t => ⟨globMatch '*' '?' w t, fastWildCompareCore_spec '*' '?' (by decide) w t⟩⟩

/-- Claim C3: on inputs expressible purely in single-byte (ASCII) symbols,
the byte-wise matcher and the rune-wise matcher return identical
results. -/
theorem C3_symbol_width_equivalence (rslcWild rslcTame : List Char)
    (_hw : ∀ c ∈ rslcWild, c.toNat < 128) (_ht : ∀ c ∈ rslcTame, c.toNat < 128) :
    FastWildCompareAscii (rslcWild.map Char.toNat) (rslcTame.map Char.toNat) =
      FastWildCompareRuneSlices rslcWild rslcTame := by
  simp only [FastWildCompareAscii, FastWildCompareRuneSlices]
  rw [fastWildCompareCore_spec 42 63 (by decide),
    fastWildCompareCore_spec '*' '?' (by decide)]
  refine congrArg Except.ok ?_
  have hinj : Function.Injective Char.toNat := by
    intro a b h
    calc a = Char.ofNat a.toNat := (Char.ofNat_toNat a).symm
      _ = Char.ofNat b.toNat := by rw [h]
      _ = b := Char.ofNat_toNat b
  have hmap := globMatch_map '*' '?' Char.toNat hinj rslcWild rslcTame
  rw [show (42 : Nat) = Char.toNat '*' from rfl, show (63 : Nat) = Char.toNat '?' from rfl]
  exact hmap

/-- Witness for C3 at a concrete ASCII input. -/
theorem C3_symbol_width_equivalence_witness :
    (∀ c ∈ (['a', '*', 'b'] : List Char), c.toNat < 128) ∧
    (∀ c ∈ (['a', 'x', 'b'] : List Char), c.toNat < 128) ∧
    FastWildCompareAscii (['a', '*', 'b'].map Char.toNat) (['a', 'x', 'b'].map Char.toNat) =
      FastWildCompareRuneSlices ['a', '*', 'b'] ['a', 'x', 'b'] :=
  ⟨by decide, by decide,
    C3_symbol_width_equivalence ['a', '*', 'b'] ['a', 'x', 'b'] (by decide) (by decide)⟩

/-- Claim C4: collapsing every maximal run of consecutive `*` symbols in
the pattern to a single `*` does not change the verdict. -/
theorem C4_star_run_collapsing (strWild strTame : List Nat) :
    FastWildCompareAscii strWild strTame =
      FastWildCompareAscii (collapseStarRuns 42 strWild) strTame := by
  simp only [FastWildCompareAscii]
  rw [fastWildCompareCore_spec 42 63 (by decide),
    fastWildCompareCore_spec 42 63 (by decide),
    globMatch_collapseStarRuns 42 63 strWild strTame]

/-- Claim C5: for every filler, pattern `a*bc` matches `a` ++ filler ++
`bc` and fails on `a` ++ filler ++ `bd` — the backtracking search retries
split points, and the match is anchored at the subject's end. -/
theorem C5_backtracking_anchored (filler : List Nat) :
    FastWildCompareAscii [97, 42, 98, 99] (97 :: (filler ++ [98, 99])) = .ok true ∧
    FastWildCompareAscii [97, 42, 98, 99] (97 :: (filler ++ [98, 100])) = .ok false := by
  have hexact : ∀ v : List Nat,
      globMatch 42 63 [98, 99] v = decide ([98, 99] = v) :=
    globMatch_no_markers 42 63 [98, 99] (by decide)
  constructor
  · simp only [FastWildCompareAscii]
    rw [fastWildCompareCore_spec 42 63 (by decide)]
    refine congrArg Except.ok ?_
    rw [globMatch_cons_ne 42 63 (show (97 : Nat) ≠ 42 by decide), if_pos (Or.inr rfl)]
    refine (globMatch_star_iff 42 63 [98, 99] (filler ++ [98, 99])).mpr
      ⟨filler.length, by simp, ?_⟩
    rw [List.drop_left, hexact]
    simp
  · simp only [FastWildCompareAscii]
    rw [fastWildCompareCore_spec 42 63 (by decide)]
    refine congrArg Except.ok ?_
    rw [globMatch_cons_ne 42 63 (show (97 : Nat) ≠ 42 by decide), if_pos (Or.inr rfl)]
    rcases Bool.eq_false_or_eq_true
        (globMatch 42 63 [42, 98, 99] (filler ++ [98, 100])) with h | h
    · exfalso
      obtain ⟨j, hj, hg⟩ :=
        (globMatch_star_iff 42 63 [98, 99] (filler ++ [98, 100])).mp h
      rw [hexact, decide_eq_true_eq] at hg
      have hlen := congrArg List.length hg
      simp [List.length_drop] at hlen
      obtain rfl : j = filler.length := by omega
      rw [List.drop_left] at hg
      simp at hg
    · exact h

/-- Claim C6: wildcard meaning attaches only to pattern symbols; subject
symbols whose values equal the marker values are compared purely as
literals.  A marker-free pattern matches exactly by sequence equality no
matter which marker-valued symbols the subject contains, and the spec's
concrete marker-in-subject scenarios hold. -/
theorem C6_subject_wildcards_literal :
    (∀ strWild strTame : List Nat, (∀ c ∈ strWild, c ≠ 42 ∧ c ≠ 63) →
      FastWildCompareAscii strWild strTame = .ok (decide (strWild = strTame))) ∧
    FastWildCompareAscii [97, 42, 98] [97, 42, 97, 98, 97, 98] = .ok true ∧
    FastWildCompareAscii [42] [42] = .ok true := by
  refine ⟨?_, rfl, rfl⟩
  intro w t hw
  simp only [FastWildCompareAscii]
  rw [fastWildCompareCore_spec 42 63 (by decide),
    globMatch_no_markers 42 63 w hw t]

/-- Witness for C6 at a concrete marker-free pattern and marker-valued
subject. -/
theorem C6_subject_wildcards_literal_witness :
    (∀ c ∈ ([97, 98] : List Nat), c ≠ 42 ∧ c ≠ 63) ∧
    FastWildCompareAscii [97, 98] [42, 63] =
      .ok (decide (([97, 98] : List Nat) = [42, 63])) :=
  ⟨by decide, C6_subject_wildcards_literal.1 [97, 98] [42, 63] (by decide)⟩

/-- Claim C7: the empty pattern matches only the empty subject, and the
pattern `?` does not match the empty subject. -/
theorem C7_empty_pattern_and_single_qm :
    FastWildCompareAscii [] [] = .ok true ∧
    (∀ strTame : List Nat, strTame ≠ [] →
      FastWildCompareAscii [] strTame = .ok false) ∧
    FastWildCompareAscii [63] [] = .ok false := by
  refine ⟨rfl, ?_, rfl⟩
  intro t ht
  simp only [FastWildCompareAscii]
  rw [fastWildCompareCore_spec 42 63 (by decide), globMatch_nil_left]
  cases t with
  | nil => exact absurd rfl ht
  | cons x t => rfl

/-- Witness for C7 at a concrete nonempty subject. -/
theorem C7_empty_pattern_witness :
    ([97] : List Nat) ≠ [] ∧ FastWildCompareAscii [] [97] = .ok false :=
  ⟨by decide, C7_empty_pattern_and_single_qm.2.1 [97] (by decide)⟩

/-- Claim C8: a pattern consisting solely of `*` symbols (any count at
least one) matches every subject, including the empty one. -/
theorem C8_all_star_pattern_matches (n : Nat) (hn : 1 ≤ n) (strTame : List Nat) :
    FastWildCompareAscii (List.replicate n 42) strTame = .ok true := by
  simp only [FastWildCompareAscii]
  rw [fastWildCompareCore_spec 42 63 (by decide),
    globMatch_replicate_star 42 63 strTame n hn]

/-- Witness for C8 at a concrete star count and subject. -/
theorem C8_all_star_pattern_matches_witness :
    1 ≤ 3 ∧ FastWildCompareAscii (List.replicate 3 42) [5, 6] = .ok true :=
  ⟨by decide, C8_all_star_pattern_matches 3 (by decide) [5, 6]⟩

/-- Claim C9: matching any sequence against itself, as both pattern and
subject, succeeds. -/
theorem C9_self_match (s : List Nat) : FastWildCompareAscii s s = .ok true := by
  simp only [FastWildCompareAscii]
  rw [fastWildCompareCore_spec 42 63 (by decide), globMatch_self 42 63 s]

/-- Claim C10: no index access of either matcher is ever out of bounds —
the embedded out-of-bounds outcome (Go's panic) is unreachable for every
input pair. -/
theorem C10_no_out_of_bounds_access :
    (∀ strWild strTame : List Nat,
      FastWildCompareAscii strWild strTame ≠ .error Err.oob) ∧
    (∀ rslcWild rslcTame : List Char,
      FastWildCompareRuneSlices rslcWild rslcTame ≠ .error Err.oob) := by
  constructor
  · intro w t h
    rw [show FastWildCompareAscii w t = fastWildCompareCore 42 63 w t from rfl,
      fastWildCompareCore_spec 42 63 (by decide) w t] at h
    exact Except.noConfusion h
  · intro w t h
    rw [show FastWildCompareRuneSlices w t = fastWildCompareCore '*' '?' w t from rfl,
      fastWildCompareCore_spec '*' '?' (by decide) w t] at h
    exact Except.noConfusion h

/-- Witness for C10 at concrete inputs. -/
theorem C10_no_out_of_bounds_access_witness :
    FastWildCompareAscii [97] [98] ≠ .error Err.oob ∧
    FastWildCompareRuneSlices ['a'] ['b'] ≠ .error Err.oob :=
  ⟨C10_no_out_of_bounds_access.1 [97] [98],
   C10_no_out_of_bounds_access.2 ['a'] ['b']⟩

end MatchingWildcards
